import Mathlib

/-!
Verification development for the FDM preconditioner core
(`firedrake/preconditioners/fdm.py`).

Shallow embedding conventions:
* Real (floating-point) scalars are modelled by `ℚ`.
* A PETSc/numpy matrix is modelled as a total function `ℕ → ℕ → ℚ` together
  with an explicit size parameter where it matters; entries of an assembled
  sparse matrix that were never written are `0`.
* Stateful PETSc insertion (`setValue`/`setValues` with `INSERT_VALUES` or
  `ADD_VALUES`) is modelled by explicit functional updates folded over the
  write sequence in the order the source performs it.
-/

set_option maxHeartbeats 1000000
set_option linter.unusedVariables false

/-- Matrices with rational entries, indexed by naturals.  The dimension is
kept as a separate parameter of each operation that needs it. -/
abbrev Mtx := ℕ → ℕ → ℚ

/-- The all-zero matrix (used as an out-of-range default for catalog lookup). -/
def mzero : Mtx := fun _ _ => 0

/-- One `INSERT_VALUES` write of value `v` at row `r`, column `c`. -/
def setValueIns (M : Mtx) (r c : ℕ) (v : ℚ) : Mtx :=
  fun i j => if i = r ∧ j = c then v else M i j

/-- Embedding of `numpy_to_petsc` (fdm.py, lines 588-615): build a SeqAIJ
matrix from a dense one, storing the diagonal (when `diag` is set), the full
rows and columns listed in `dense`, and, when `dense` is empty, the two
off-diagonal corner entries.  The result is the value function of the
assembled matrix (unwritten entries read as `0`).  The column insertion uses
`A_numpy[:][j]`, which in numpy is row `j` of `A`, exactly as the source
does. -/
def numpy_to_petsc (nn : ℕ) (A : Mtx) (dense : List ℕ) (diag : Bool) : Mtx :=
  let M0 : Mtx := fun _ _ => 0
  let M1 := if diag then (List.range nn).foldl (fun M jj => setValueIns M jj jj (A jj jj)) M0 else M0
  if dense ≠ [] then
    dense.foldl (fun M jj =>
      let Mr := (List.range nn).foldl (fun M idx => setValueIns M jj idx (A jj idx)) M
      (List.range nn).foldl (fun M idx => setValueIns M idx jj (A jj idx)) Mr) M1
  else
    setValueIns (setValueIns M1 0 (nn-1) (A 0 (nn-1))) (nn-1) 0 (A (nn-1) 0)

/-- Transform a matrix by the eigenvector tabulation: `S.T @ M @ S`
(fdm.py, lines 704-705 and 740-741). -/
def matTfm (nn : ℕ) (S M : Mtx) : Mtx :=
  fun i j => ∑ k ∈ Finset.range nn, ∑ l ∈ Finset.range nn, S k i * M k l * S l j

/-- Product `S.T @ D` used for the normal-derivative tabulation
(fdm.py, line 673). -/
def matMulT (nn : ℕ) (S D : Mtx) : Mtx :=
  fun i j => ∑ k ∈ Finset.range nn, S k i * D k j

/-- Embedding of the sign flip `Dfacet[:, 0] = -Dfacet[:, 0]`
(fdm.py, line 672): negate the first-endpoint column of a 2-column
endpoint-derivative tabulation. -/
def fdm_setup_flip (Draw : Mtx) : Mtx :=
  fun i j => if j = 0 then -(Draw i 0) else Draw i j

/-- Embedding of `apply_strong_bcs` (fdm.py, lines 693-700), before the
conversion to a sparse matrix: copy `Ahat`, zero the contiguous block
`A[kk, kk]` with `kk = slice(0 if bc0 == 1 else 1, nn if bc1 == 1 else nn-1)`,
then restore the diagonal. -/
def apply_strong_bcs (nn : ℕ) (Ahat : Mtx) (bc0 bc1 : ℕ) : Mtx :=
  let k0 : ℕ := if bc0 = 1 then 0 else 1
  let k1 : ℕ := if bc1 = 1 then nn else nn - 1
  fun i j =>
    if i = j then Ahat i j
    else if k0 ≤ i ∧ i < k1 ∧ k0 ≤ j ∧ j < k1 then 0
    else Ahat i j

/-- One endpoint update of `apply_weak_bcs` (fdm.py, lines 732-736):
subtract `Dfacet[:, dcol]` from column `j` and from row `j`, then add `eta`
to the diagonal entry `(j, j)`. -/
def weak_step (Dfacet : Mtx) (eta : ℚ) (M : Mtx) (j dcol : ℕ) : Mtx :=
  let M1 : Mtx := fun i k => if k = j then M i k - Dfacet i dcol else M i k
  let M2 : Mtx := fun i k => if i = j then M1 i k - Dfacet k dcol else M1 i k
  fun i k => if i = j ∧ k = j then M2 i k + eta else M2 i k

/-- Embedding of `apply_weak_bcs` (fdm.py, lines 730-737), before the
conversion to a sparse matrix: for each endpoint `j ∈ (0, -1)` whose flag is
1, apply `weak_step`, first at endpoint 0 (derivative column 0), then at
endpoint `-1` (row/column `nn-1`, derivative column 1). -/
def apply_weak_bcs (nn : ℕ) (Ahat Dfacet : Mtx) (bc0 bc1 : ℕ) (eta : ℚ) : Mtx :=
  let Ma := if bc0 = 1 then weak_step Dfacet eta Ahat 0 0 else Ahat
  if bc1 = 1 then weak_step Dfacet eta Ma (nn-1) 1 else Ma

/-- The double loop `for bc1 in range(2): for bc0 in range(2): Afdm.append(...)`
appending the four boundary-condition variants after the mass matrix
(fdm.py, lines 706-709 and 742-745). -/
def cat_variants (mass : Mtx) (variant : ℕ → ℕ → Mtx) : List Mtx :=
  (List.range 2).foldl
    (fun l bc1 => (List.range 2).foldl (fun l bc0 => l ++ [variant bc0 bc1]) l) [mass]

/-- Embedding of `fdm_setup_cg` (fdm.py, lines 703-710): transform the
reference stiffness and mass matrices by `Sfdm`, then store the transformed
mass matrix and the four strong-boundary-condition stiffness variants as
sparse matrices. -/
def fdm_setup_cg (nn : ℕ) (Ahat Bhat Sfdm : Mtx) : List Mtx :=
  let A := matTfm nn Sfdm Ahat
  let B := matTfm nn Sfdm Bhat
  cat_variants (numpy_to_petsc nn B [] true)
    (fun bc0 bc1 => numpy_to_petsc nn (apply_strong_bcs nn A bc0 bc1) [0, nn-1] true)

/-- Embedding of `fdm_setup` + `fdm_setup_ipdg` (fdm.py, lines 654-674 and
739-746).  `Draw` is the raw tabulation of the first derivative of the nodal
basis at the two endpoints (`elem.tabulate(1, ref_el.get_vertices())`, an
external FIAT call); the source flips the sign of its first column, builds
`Dfdm = Sfdm.T @ Dfacet`, and produces the four weak-boundary-condition
stiffness variants.  Returns the catalog and `Dfdm`. -/
def fdm_setup_ipdg (nn : ℕ) (Ahat Bhat Sfdm Draw : Mtx) (eta : ℚ) : List Mtx × Mtx :=
  let Dfdm := matMulT nn Sfdm (fdm_setup_flip Draw)
  let A := matTfm nn Sfdm Ahat
  let B := matTfm nn Sfdm Bhat
  (cat_variants (numpy_to_petsc nn B [] true)
     (fun bc0 bc1 => numpy_to_petsc nn (apply_weak_bcs nn A Dfdm bc0 bc1 eta) [0, nn-1] true),
   Dfdm)

/-- The transform claim C3 asserts, written from the specification's words:
zero the rows and columns of each constrained endpoint, leave that
endpoint's diagonal entry untouched, and leave every entry outside the
constrained endpoints' rows and columns unchanged. -/
def spec_strong_bcs (nn : ℕ) (Ahat : Mtx) (bc0 bc1 : ℕ) : Mtx :=
  fun i j =>
    if i = j then Ahat i j
    else if (bc0 = 1 ∧ (i = 0 ∨ j = 0)) ∨ (bc1 = 1 ∧ (i = nn-1 ∨ j = nn-1)) then 0
    else Ahat i j

/-- The transform claim C4 asserts, written from the specification's words:
from `A`, independently for each endpoint in the weak-Dirichlet state,
subtract the flux-coupling column and row `Dfacet` at that endpoint and add
`eta` on that endpoint's diagonal entry. -/
def spec_weak_bcs (nn : ℕ) (Ahat Dfacet : Mtx) (bc0 bc1 : ℕ) (eta : ℚ) : Mtx :=
  fun i j =>
    Ahat i j
    - (if bc0 = 1 then (if j = 0 then Dfacet i 0 else 0) + (if i = 0 then Dfacet j 0 else 0) else 0)
    + (if bc0 = 1 ∧ i = 0 ∧ j = 0 then eta else 0)
    - (if bc1 = 1 then (if j = nn-1 then Dfacet i 1 else 0) + (if i = nn-1 then Dfacet j 1 else 0) else 0)
    + (if bc1 = 1 ∧ i = nn-1 ∧ j = nn-1 then eta else 0)

/-- In-place scaling `M.scale(c)` of a PETSc matrix. -/
def matScale (c : ℚ) (A : Mtx) : Mtx := fun i j => c * A i j

/-- In-place `Y.axpy(a, X)`, i.e. `Y + a * X`. -/
def matAxpy (a : ℚ) (X Y : Mtx) : Mtx := fun i j => Y i j + a * X i j

/-- PETSc `A.kron(B)` where `B` is `p × p`: row-major Kronecker product. -/
def matKron (p : ℕ) (A B : Mtx) : Mtx :=
  fun i j => A (i / p) (j / p) * B (i % p) (j % p)

/-- The 2-D local cell block built by `assemble_kron` (fdm.py, lines
331-341), translated operation by operation: `cat0`/`cat1` are the interval
catalogs of the first and second axis of this component (after the axes
roll), `fbc0`/`fbc1` the boundary flags in those directions, `mu0 mu1` the
diffusion coefficients, and `bq` the optional reaction coefficient. -/
def localBlock2D (n1 : ℕ) (cat0 cat1 : ℕ → Mtx) (fbc0 fbc1 : ℕ)
    (mu0 mu1 : ℚ) (bq : Option ℚ) : Mtx :=
  let Be := cat0 0
  let Ae := matScale mu0 (cat0 (1 + fbc0))
  let Ae := match bq with
    | some b => matAxpy b Be Ae
    | none => Ae
  let Ae := matKron n1 Ae (cat1 0)
  matAxpy mu1 (matKron n1 Be (cat1 (1 + fbc1))) Ae

/-- The 3-D local cell block built by `assemble_kron` (fdm.py, lines
331-346), translated operation by operation. -/
def localBlock3D (n1 n2 : ℕ) (cat0 cat1 cat2 : ℕ → Mtx) (fbc0 fbc1 fbc2 : ℕ)
    (mu0 mu1 mu2 : ℚ) (bq : Option ℚ) : Mtx :=
  let Be := cat0 0
  let Ae := matScale mu0 (cat0 (1 + fbc0))
  let Ae := match bq with
    | some b => matAxpy b Be Ae
    | none => Ae
  let Ae := matKron n1 Ae (cat1 0)
  let Ae := matAxpy mu1 (matKron n1 Be (cat1 (1 + fbc1))) Ae
  let Be := matKron n1 Be (cat1 0)
  let Ae := matKron n2 Ae (cat2 0)
  matAxpy mu2 (matKron n2 Be (cat2 (1 + fbc2))) Ae

/-- Claim C2's 2-D formula, written from the specification's words:
`(mu0 * Ahat_bc0) ⊗ Bhat + mu1 * (Bhat ⊗ Ahat_bc1)`, plus
`bq * (Bhat ⊗ Bhat)` when a reaction coefficient is present. -/
def localBlock2D_spec (n1 : ℕ) (cat0 cat1 : ℕ → Mtx) (fbc0 fbc1 : ℕ)
    (mu0 mu1 : ℚ) (bq : Option ℚ) : Mtx :=
  fun i j =>
    matKron n1 (matScale mu0 (cat0 (1 + fbc0))) (cat1 0) i j
    + mu1 * matKron n1 (cat0 0) (cat1 (1 + fbc1)) i j
    + (match bq with
       | some b => b * matKron n1 (cat0 0) (cat1 0) i j
       | none => 0)

/-- Claim C2's 3-D formula: the analogous 3-term Kronecker sum plus
`bq * (Bhat ⊗ Bhat ⊗ Bhat)` when a reaction coefficient is present. -/
def localBlock3D_spec (n1 n2 : ℕ) (cat0 cat1 cat2 : ℕ → Mtx) (fbc0 fbc1 fbc2 : ℕ)
    (mu0 mu1 mu2 : ℚ) (bq : Option ℚ) : Mtx :=
  fun i j =>
    matKron n2 (matKron n1 (matScale mu0 (cat0 (1 + fbc0))) (cat1 0)) (cat2 0) i j
    + mu1 * matKron n2 (matKron n1 (cat0 0) (cat1 (1 + fbc1))) (cat2 0) i j
    + mu2 * matKron n2 (matKron n1 (cat0 0) (cat1 0)) (cat2 (1 + fbc2)) i j
    + (match bq with
       | some b => b * matKron n2 (matKron n1 (cat0 0) (cat1 0)) (cat2 0) i j
       | none => 0)

/-- Numpy-style Kronecker product of integer matrices, where the second
factor has shape `p × q` (used for `flag2id`). -/
def npKron (p q : ℕ) (A B : ℕ → ℕ → ℕ) : ℕ → ℕ → ℕ :=
  fun i j => A (i / p) (j / q) * B (i % p) (j % q)

/-- Identity matrix `numpy.eye(n)` with integer entries. -/
def eyeN (n : ℕ) : ℕ → ℕ → ℕ := fun i j => if i = j ∧ i < n then 1 else 0

/-- The column `[[1], [2]]`. -/
def colOneTwo : ℕ → ℕ → ℕ := fun i _ => if i = 0 then 1 else 2

/-- Embedding of `flag2id = numpy.kron(numpy.eye(ndim), [[1], [2]])`
(fdm.py, line 266), a `(2*ndim) × ndim` matrix. -/
def flag2id (ndim : ℕ) : ℕ → ℕ → ℕ := npKron 2 1 (eyeN ndim) colOneTwo

/-- Embedding of `fbc = numpy.dot(bck, flag2id)` (fdm.py, line 329): the
component `d` of the dot product of the per-facet flag vector `bck` (length
`2*ndim`, local facet `f` flags direction `f / 2`, side `f % 2`) with
`flag2id`. -/
def fbcDot (bck : ℕ → ℕ) (ndim d : ℕ) : ℕ :=
  ∑ f ∈ Finset.range (2 * ndim), bck f * flag2id ndim f d

/-- Embedding of the stiffness-matrix quadrature formula of `semhat`
(fdm.py, line 648): `Ahat = (Dhat * what) @ Dhat.T` for a tabulation `Dhat`
of the basis derivatives at `nq` quadrature points with weights `wq`. -/
def semhat_A (nq : ℕ) (Dhat : Mtx) (wq : ℕ → ℚ) : Mtx :=
  fun i j => ∑ q ∈ Finset.range nq, Dhat i q * wq q * Dhat j q

/-- Tabulation of the derivatives of the two degree-1 GLL (hat) basis
functions on the unit interval at the two Gauss quadrature points.
Modelled from the spec: section 4.1 step 1 tabulates the nodal basis
derivative at a `degree+1`-point rule; for degree 1 the derivatives are the
constants `-1` and `1` (the FIAT tabulation itself is an external
collaborator). -/
def Dhat1 : Mtx := fun i q => if q < 2 then (if i = 0 then -1 else if i = 1 then 1 else 0) else 0

/-- The two Gauss weights on the unit interval. -/
def what1 : ℕ → ℚ := fun q => if q < 2 then 1/2 else 0

/-- Reference stiffness matrix of the degree-1 interval element,
`[[1, -1], [-1, 1]]`. -/
def Ahat1 : Mtx := fun i j => if i < 2 ∧ j < 2 then (if i = j then 1 else -1) else 0

/-- Reference mass matrix of the degree-1 interval element,
`[[1/3, 1/6], [1/6, 1/3]]` (exact integrals; the 2-point Gauss rule used by
the source is exact for this degree). -/
def Bhat1 : Mtx := fun i j => if i = j ∧ i < 2 then 1/3 else if i < 2 ∧ j < 2 then 1/6 else 0

/-- The 2×2 identity: for degree 1 (`Sfdm.shape[0] = 2`, not `> 2`) the
source skips the eigensolve and keeps `Sfdm = numpy.eye(Ahat.shape[0])`
(fdm.py, lines 660-661). -/
def eye2 : Mtx := fun i j => if i = j ∧ i < 2 then 1 else 0

/-- One `ADD_VALUES` write into the global matrix.  PETSc ignores writes
whose row or column index is negative (this is how strongly eliminated
degrees of freedom are filtered by the local-to-global map). -/
def setValueAdd (M : Mtx) (r c : ℤ) (v : ℚ) : Mtx :=
  if 0 ≤ r ∧ 0 ≤ c then
    fun i j => if i = r.toNat ∧ j = c.toNat then M i j + v else M i j
  else M

/-- One local contribution scattered by `assemble_kron`: the list `ie` of
local node indices of the cell (or facet pair), and the CSR entries of the
local matrix, as (local row, local column, value) triples. -/
structure Contrib where
  ie : List ℕ
  entries : List (ℕ × ℕ × ℚ)

/-- Embedding of `set_submat_csr` (fdm.py, lines 580-585): add each CSR
entry of the local matrix into the global matrix at the mapped global row
and column.  An out-of-range local index yields the PETSc-ignored row `-1`. -/
def set_submat_csr (M : Mtx) (grows : List ℤ) (entries : List (ℕ × ℕ × ℚ)) : Mtx :=
  entries.foldl
    (fun M t => setValueAdd M (grows.getD t.1 (-1)) (grows.getD t.2.1 (-1)) t.2.2) M

/-- Scatter one contribution: global rows are the local node indices mapped
through the boundary-condition-aware local-to-global map. -/
def scatterContrib (lgmap : ℕ → ℤ) (M : Mtx) (c : Contrib) : Mtx :=
  set_submat_csr M (c.ie.map lgmap) c.entries

/-- Embedding of `assemble_kron` (fdm.py, lines 237-438) on a
non-preallocator matrix, abstracted over the local contributions:
1. zero all entries;
2. insert `1.0` (with `ADD_VALUES`) at `(row, row)` for every row
   `V.dof_dset.lgmap.indices[lgmap.indices < 0]`, i.e. `dlgmap i` for every
   local dof `i` eliminated by the bc-aware map `lgmap` (fdm.py, 280-281);
3. scatter the zeroth-order-term and cell-loop contributions (fdm.py,
   296-307 and 312-351), each through `lgmap`;
4. if any direction has a normal-derivative tabulation, fail with
   `NotImplementedError` when the topological dimension `ndim` is smaller
   than the geometric dimension `gdim` (fdm.py, 353-356), otherwise scatter
   the interior-facet contributions (fdm.py, 357-437).
Returns the raised error (if any) together with the matrix state.
The Dirichlet-row pass (step 2) is split out as `dirichletMat`. -/
def dirichletMat (ndof : ℕ) (lgmap dlgmap : ℕ → ℤ) : Mtx :=
  (List.range ndof).foldl
    (fun M i => if lgmap i < 0 then setValueAdd M (dlgmap i) (dlgmap i) 1 else M)
    (fun _ _ => 0)

def assemble_kron (ndim gdim ndof : ℕ) (Dfdm : List (Option Unit))
    (lgmap dlgmap : ℕ → ℤ) (cellContribs facetContribs : List Contrib) :
    Option String × Mtx :=
  let M2 := cellContribs.foldl (scatterContrib lgmap) (dirichletMat ndof lgmap dlgmap)
  if Dfdm.any Option.isSome then
    if ndim < gdim then
      (some "SIPG on immersed meshes is not implemented", M2)
    else
      (none, facetContribs.foldl (scatterContrib lgmap) M2)
  else
    (none, M2)

/-- Sub-domain target of a Dirichlet boundary condition (fdm.py, 920-932). -/
inductive BCSub where
  | onBoundary : BCSub
  | bcBottom : BCSub
  | bcTop : BCSub
  | bcLabels : List ℤ → BCSub
deriving DecidableEq

/-- One `DirichletBC`: the component indices it is restricted to (empty for
an unrestricted condition) and its sub-domain. -/
structure BCrec where
  indices : List ℕ
  sub : BCSub
deriving DecidableEq

/-- Kind of an exterior facet integral found in the Jacobian
(fdm.py, 942-957): plain `exterior_facet`, or the extruded-mesh
`exterior_facet_bottom` / `exterior_facet_top`. -/
inductive ExtKind where
  | plainFacet : ExtKind
  | bottomFacet : ExtKind
  | topFacet : ExtKind
deriving DecidableEq

/-- Sub-domain id of a facet integral: `"everywhere"` or explicit labels. -/
inductive IntSub where
  | everywhere : IntSub
  | intLabels : List ℤ → IntSub
deriving DecidableEq

/-- One exterior-facet integral of the Jacobian (integrals of other types
are not inspected by `get_bc_flags`). -/
structure FacetIntegral where
  kind : ExtKind
  sub : IntSub
deriving DecidableEq

/-- The python dict `comp`, as an association list keyed by the component
index tuple; later writes shadow earlier ones. -/
abbrev CompMap := List (List ℕ × List ℤ)

/-- `comp.get(key, ())`. -/
def compGet (m : CompMap) (k : List ℕ) : List ℤ :=
  match m.find? (fun p => decide (p.1 = k)) with
  | some p => p.2
  | none => []

/-- `comp[key] = v`. -/
def compSet (m : CompMap) (k : List ℕ) (v : List ℤ) : CompMap := (k, v) :: m

/-- `comp.keys()`. -/
def compKeys (m : CompMap) : List (List ℕ) := m.map Prod.fst

/-- Processing of one Dirichlet boundary condition (fdm.py, 920-932): an
`"on_boundary"` target is recorded in `maskall`; `"bottom"`, `"top"` and
explicit labels are appended to `comp[bc._indices]`.  The source always
writes `comp[bc._indices] = labels`, even for `"on_boundary"`. -/
def stepBC (st : CompMap × List (List ℕ)) (bc : BCrec) : CompMap × List (List ℕ) :=
  let labels := compGet st.1 bc.indices
  match bc.sub with
  | .onBoundary => (compSet st.1 bc.indices labels, st.2 ++ [bc.indices])
  | .bcBottom => (compSet st.1 bc.indices (labels ++ [-2]), st.2)
  | .bcTop => (compSet st.1 bc.indices (labels ++ [-4]), st.2)
  | .bcLabels ls => (compSet st.1 bc.indices (labels ++ ls), st.2)

/-- Processing of one exterior-facet integral of the Jacobian (fdm.py,
942-957): every such integral imposes a weak Dirichlet condition on all
components (key `()`); `"everywhere"` on a plain facet integral is recorded
in `maskall`, on bottom/top it contributes the labels `-2`/`-4`. -/
def stepIntegral (st : CompMap × List (List ℕ)) (it : FacetIntegral) :
    CompMap × List (List ℕ) :=
  let labels := compGet st.1 []
  match it.sub with
  | .everywhere =>
      match it.kind with
      | .bottomFacet => (compSet st.1 [] (labels ++ [-2]), st.2)
      | .topFacet => (compSet st.1 [] (labels ++ [-4]), st.2)
      | .plainFacet => (compSet st.1 [] labels, st.2 ++ [[]])
  | .intLabels ls => (compSet st.1 [] (labels ++ ls), st.2)

/-- Entry `cell_to_facets[c, f, 0]`: 0 for an exterior facet, nonzero
(1) for an interior facet. -/
def facetFlag (ctf : List (List (ℤ × ℤ))) (c f : ℕ) : ℤ :=
  ((ctf.getD c []).getD f (0, -1)).1

/-- Entry `cell_to_facets[c, f, 1]`: the sub-domain id of the facet
(−1 when unmarked). -/
def facetSub (ctf : List (List (ℤ × ℤ))) (c f : ℕ) : ℤ :=
  ((ctf.getD c []).getD f (0, -1)).2

/-- The all-components flag pass (fdm.py, 959-965): membership of the facet
sub-domain id in the collected labels, then `fbc[sub >= -1] = 1` when an
unrestricted `"on_boundary"` condition or `"everywhere"` facet integral was
seen, then `fbc[flags != 0] = 0` forcing interior facets to natural. -/
def fbcBase (ctf : List (List (ℤ × ℤ))) (comp : CompMap) (maskall : List (List ℕ))
    (c f : ℕ) : ℕ :=
  let s := facetSub ctf c f
  let b0 : ℕ := if s ∈ compGet comp [] then 1 else 0
  let b1 : ℕ := if [] ∈ maskall ∧ -1 ≤ s then 1 else b0
  if facetFlag ctf c f ≠ 0 then 0 else b1

/-- The per-component pass (fdm.py, 967-979): starting from the tiled
all-components flags, OR in the component labels, then apply the
component-level `maskall` override `fbc[j][sub >= -1] = 1`.  Note the source
does not re-apply the interior-facet clearing after these updates. -/
def fbcComp (ctf : List (List (ℤ × ℤ))) (comp : CompMap) (maskall : List (List ℕ))
    (j c f : ℕ) : ℕ :=
  let s := facetSub ctf c f
  let b0 := fbcBase ctf comp maskall c f
  let b1 := if s ∈ compGet comp [j] then 1 else b0
  if [j] ∈ maskall ∧ -1 ≤ s then 1 else b1

/-- Embedding of `get_bc_flags` (fdm.py, lines 869-980) for a non-extruded
mesh: `ctf` is `mesh.cell_to_facets` (per cell, per local facet: interior
flag and sub-domain id), `bcs` the Dirichlet boundary conditions, `its` the
exterior-facet integrals of the Jacobian.  The result maps
(cell, component, local facet) to the flag; when no component-restricted
condition exists the source returns a 2-D array, modelled here as the same
flags for every component index. -/
def get_bc_flags (ctf : List (List (ℤ × ℤ))) (bcs : List BCrec)
    (its : List FacetIntegral) : ℕ → ℕ → ℕ → ℕ :=
  let st := its.foldl stepIntegral (bcs.foldl stepBC ([], []))
  let comp := st.1
  let maskall := st.2
  if (compKeys comp).any (fun k => decide (k ≠ [])) then
    fun c j f => fbcComp ctf comp maskall j c f
  else
    fun c _ f => fbcBase ctf comp maskall c f

/-- Concrete local-to-global map with dof 1 eliminated (witness data). -/
def lgW : ℕ → ℤ := fun i => if i = 1 then -2 else (i : ℤ)

/-- Concrete unconstrained local-to-global map (witness data). -/
def dlgW : ℕ → ℤ := fun i => (i : ℤ)

/-- Concrete cell contribution touching the eliminated dof (witness data). -/
def ccW : Contrib := ⟨[0, 1, 2], [(0, 0, 5), (1, 1, 7), (0, 1, 3), (2, 1, 4), (1, 2, 2)]⟩

/-- A second concrete cell contribution (witness data). -/
def ccW2 : Contrib := ⟨[0, 2], [(0, 0, 1), (0, 1, 2), (1, 0, 6)]⟩

/-- One cell with a single interior facet (counterexample data for C5). -/
def ctfC5 : List (List (ℤ × ℤ)) := [[(1, -1)]]

/-- A Dirichlet condition on `"on_boundary"` restricted to component 0
(counterexample data for C5). -/
def bcsC5 : List BCrec := [⟨[0], BCSub.onBoundary⟩]

/-- One cell with a single unmarked exterior facet (sub-domain id -1)
(counterexample data for C6). -/
def ctfC6 : List (List (ℤ × ℤ)) := [[(0, -1)]]

/-- An unrestricted Dirichlet condition on `"on_boundary"`
(counterexample data for C6). -/
def bcsC6 : List BCrec := [⟨[], BCSub.onBoundary⟩]

/-- Concrete per-facet flag vector: facet 0 (direction 0, first endpoint)
flagged Dirichlet, all others natural (witness data). -/
def bckW : ℕ → ℕ := fun f => if f = 0 then 1 else 0

lemma foldl_row_write (A : Mtx) (jj : ℕ) (l : List ℕ) (M : Mtx) (i j : ℕ) :
    (l.foldl (fun M idx => setValueIns M jj idx (A jj idx)) M) i j
      = if i = jj ∧ j ∈ l then A jj j else M i j := by
  induction l generalizing M with
  | nil => simp
  | cons x xs ih =>
      simp only [List.foldl_cons, ih, setValueIns, List.mem_cons]
      by_cases h1 : i = jj <;> by_cases h2 : j ∈ xs <;> by_cases h3 : j = x <;> simp_all

lemma foldl_col_write (A : Mtx) (jj : ℕ) (l : List ℕ) (M : Mtx) (i j : ℕ) :
    (l.foldl (fun M idx => setValueIns M idx jj (A jj idx)) M) i j
      = if j = jj ∧ i ∈ l then A jj i else M i j := by
  induction l generalizing M with
  | nil => simp
  | cons x xs ih =>
      simp only [List.foldl_cons, ih, setValueIns, List.mem_cons]
      by_cases h1 : j = jj <;> by_cases h2 : i ∈ xs <;> by_cases h3 : i = x <;> simp_all

lemma foldl_diag_write (A : Mtx) (l : List ℕ) (M : Mtx) (i j : ℕ) :
    (l.foldl (fun M k => setValueIns M k k (A k k)) M) i j
      = if i = j ∧ i ∈ l then A i i else M i j := by
  induction l generalizing M with
  | nil => simp
  | cons x xs ih =>
      simp only [List.foldl_cons, ih, setValueIns, List.mem_cons]
      by_cases h1 : i = j <;> by_cases h2 : i ∈ xs <;> by_cases h3 : i = x <;>
        by_cases h4 : j = x <;> simp_all

/-- Value of `numpy_to_petsc` with `dense = [0, nn-1]` and `diag = true`
(the form used for every stiffness catalog entry), as a last-write-wins
case analysis. -/
lemma numpy_to_petsc_ends_apply (nn : ℕ) (A : Mtx) (i j : ℕ)
    (hi : i < nn) (hj : j < nn) :
    numpy_to_petsc nn A [0, nn-1] true i j
      = if j = nn-1 then A (nn-1) i
        else if i = nn-1 then A i j
        else if j = 0 then A 0 i
        else if i = 0 then A i j
        else if i = j then A i j
        else 0 := by
  unfold numpy_to_petsc
  simp only [if_pos rfl, List.cons_ne_nil, ne_eq, not_false_iff, if_true, List.foldl_cons,
    List.foldl_nil, ite_true]
  rw [foldl_col_write, foldl_row_write, foldl_col_write, foldl_row_write, foldl_diag_write]
  simp only [List.mem_range, hi, hj, and_true]
  by_cases h1 : j = nn-1 <;> by_cases h2 : i = nn-1 <;> by_cases h3 : j = 0 <;>
    by_cases h4 : i = 0 <;> by_cases h5 : i = j <;> simp_all

/-- Value of `numpy_to_petsc` with empty `dense` and `diag = true`
(the form used for catalog entry 0, the mass matrix). -/
lemma numpy_to_petsc_corners_apply (nn : ℕ) (A : Mtx) (i j : ℕ)
    (hi : i < nn) (hj : j < nn) :
    numpy_to_petsc nn A [] true i j
      = if i = nn-1 ∧ j = 0 then A (nn-1) 0
        else if i = 0 ∧ j = nn-1 then A 0 (nn-1)
        else if i = j then A i j
        else 0 := by
  have h : numpy_to_petsc nn A [] true
      = setValueIns (setValueIns
          ((List.range nn).foldl (fun M k => setValueIns M k k (A k k)) (fun _ _ => 0))
          0 (nn-1) (A 0 (nn-1))) (nn-1) 0 (A (nn-1) 0) := by
    simp [numpy_to_petsc]
  rw [h]
  simp only [setValueIns]
  rw [foldl_diag_write]
  simp only [List.mem_range, hi, and_true]
  by_cases h1 : i = nn-1 <;> by_cases h2 : j = 0 <;> by_cases h3 : i = 0 <;>
    by_cases h4 : j = nn-1 <;> by_cases h5 : i = j <;> simp_all

/-- For a symmetric input, the stored `[0, nn-1]`-dense matrix keeps exactly
the diagonal and the first/last rows and columns. -/
lemma numpy_to_petsc_ends_symm (nn : ℕ) (A : Mtx) (i j : ℕ)
    (hi : i < nn) (hj : j < nn)
    (hs : ∀ a b, a < nn → b < nn → A a b = A b a) :
    numpy_to_petsc nn A [0, nn-1] true i j
      = if i = 0 ∨ i = nn-1 ∨ j = 0 ∨ j = nn-1 ∨ i = j then A i j else 0 := by
  rw [numpy_to_petsc_ends_apply nn A i j hi hj]
  have hn : nn - 1 < nn := by omega
  have e1 : A (nn-1) i = A i (nn-1) := hs _ _ hn hi
  have e2 : A 0 i = A i 0 := hs _ _ (by omega) hi
  by_cases h1 : j = nn-1
  · subst h1; simp [e1]
  · by_cases h2 : i = nn-1
    · subst h2; simp [h1]
    · by_cases h3 : j = 0
      · subst h3; simp [h1, h2, e2]
      · by_cases h4 : i = 0
        · subst h4; simp [h1, h2, h3]
        · by_cases h5 : i = j <;> simp [h1, h2, h3, h4, h5]

lemma weak_step_apply (Dfacet : Mtx) (eta : ℚ) (M : Mtx) (j dcol i k : ℕ) :
    weak_step Dfacet eta M j dcol i k
      = M i k - (if k = j then Dfacet i dcol else 0)
        - (if i = j then Dfacet k dcol else 0)
        + (if i = j ∧ k = j then eta else 0) := by
  unfold weak_step
  by_cases h1 : i = j <;> by_cases h2 : k = j <;> simp [h1, h2] <;> ring

lemma apply_weak_bcs_apply (nn : ℕ) (Ahat Dfacet : Mtx) (bc0 bc1 : ℕ) (eta : ℚ)
    (i j : ℕ) : apply_weak_bcs nn Ahat Dfacet bc0 bc1 eta i j
      = spec_weak_bcs nn Ahat Dfacet bc0 bc1 eta i j := by
  unfold apply_weak_bcs spec_weak_bcs
  by_cases hb0 : bc0 = 1 <;> by_cases hb1 : bc1 = 1 <;>
    simp only [hb0, hb1, if_pos, if_neg, ite_true, ite_false, if_true, if_false,
      weak_step_apply, one_ne_zero, reduceIte] <;>
    simp [hb0, hb1] <;> ring

lemma cat_variants_eq (mass : Mtx) (v : ℕ → ℕ → Mtx) :
    cat_variants mass v = [mass, v 0 0, v 1 0, v 0 1, v 1 1] := rfl

lemma cat_variants_getD (mass : Mtx) (v : ℕ → ℕ → Mtx) (bc0 bc1 : ℕ)
    (h0 : bc0 ≤ 1) (h1 : bc1 ≤ 1) :
    (cat_variants mass v).getD (1 + bc0 + 2*bc1) mzero = v bc0 bc1 := by
  have e0 : bc0 = 0 ∨ bc0 = 1 := by omega
  have e1 : bc1 = 0 ∨ bc1 = 1 := by omega
  rcases e0 with e0 | e0 <;> rcases e1 with e1 | e1 <;> subst e0 <;> subst e1 <;> rfl

lemma apply_strong_bcs_symm (nn : ℕ) (A : Mtx) (bc0 bc1 : ℕ)
    (hs : ∀ a b, a < nn → b < nn → A a b = A b a) (a b : ℕ) (ha : a < nn) (hb : b < nn) :
    apply_strong_bcs nn A bc0 bc1 a b = apply_strong_bcs nn A bc0 bc1 b a := by
  have e := hs a b ha hb
  simp only [apply_strong_bcs]
  by_cases h : a = b
  · simp [h]
  · have h' : ¬ b = a := fun hh => h hh.symm
    simp only [if_neg h, if_neg h']
    by_cases hP : (if bc0 = 1 then 0 else 1) ≤ a ∧ a < (if bc1 = 1 then nn else nn - 1) ∧
        (if bc0 = 1 then 0 else 1) ≤ b ∧ b < (if bc1 = 1 then nn else nn - 1)
    · rw [if_pos hP, if_pos (by tauto)]
    · rw [if_neg hP, if_neg (by tauto), e]

/-- C2: for every cell, the local block built by `assemble_kron` for one
vector component equals the Kronecker-sum formula of the specification:
in 2-D `(mu0 * Ahat_bc0) ⊗ Bhat + mu1 * (Bhat ⊗ Ahat_bc1)`, in 3-D the
analogous 3-term sum, with `bq * (Bhat ⊗ ... ⊗ Bhat)` added when a scalar
reaction coefficient is present. -/
theorem C2_local_block (n1 n2 : ℕ) (cat0 cat1 cat2 : ℕ → Mtx) (fbc0 fbc1 fbc2 : ℕ)
    (mu0 mu1 mu2 : ℚ) (bq : Option ℚ) (i j : ℕ) :
    localBlock2D n1 cat0 cat1 fbc0 fbc1 mu0 mu1 bq i j
      = localBlock2D_spec n1 cat0 cat1 fbc0 fbc1 mu0 mu1 bq i j
    ∧ localBlock3D n1 n2 cat0 cat1 cat2 fbc0 fbc1 fbc2 mu0 mu1 mu2 bq i j
      = localBlock3D_spec n1 n2 cat0 cat1 cat2 fbc0 fbc1 fbc2 mu0 mu1 mu2 bq i j := by
  constructor <;> cases bq <;>
    simp [localBlock2D, localBlock2D_spec, localBlock3D, localBlock3D_spec,
      matScale, matAxpy, matKron] <;> ring

lemma matTfm_eye2 (M : Mtx) (i j : ℕ) (hi : i < 2) (hj : j < 2) :
    matTfm 2 eye2 M i j = M i j := by
  interval_cases i <;> interval_cases j <;>
    simp [matTfm, eye2, Finset.sum_range_succ]

lemma matTfm_eye2_Ahat1_symm :
    ∀ a b, a < 2 → b < 2 → matTfm 2 eye2 Ahat1 a b = matTfm 2 eye2 Ahat1 b a := by
  intro a b ha hb
  rw [matTfm_eye2 _ _ _ ha hb, matTfm_eye2 _ _ _ hb ha]
  interval_cases a <;> interval_cases b <;> norm_num [Ahat1]

/-- C3 (counterexample): at degree 1 (`nn = 2`, identity eigenbasis, so the
transformed stiffness matrix is `[[1, -1], [-1, 1]]`), the catalog variant
for `(bc0, bc1) = (1, 0)` (catalog index `1 + 1 + 2*0 = 2`) keeps the
corner entry `(0, 1) = -1`, whereas the claim's transform (zero the rows and
columns of each constrained endpoint except the diagonal) predicts `0`
there: the source only zeroes the contiguous slice `kk × kk`, which for
`bc1 = 0` stops before the last row/column. -/
theorem C3_counterexample :
    (fdm_setup_cg 2 Ahat1 Bhat1 eye2).getD 2 mzero 0 1
      ≠ spec_strong_bcs 2 (matTfm 2 eye2 Ahat1) 1 0 0 1 := by
  have hA : matTfm 2 eye2 Ahat1 1 0 = -1 := by
    rw [matTfm_eye2 Ahat1 1 0 (by norm_num) (by norm_num)]
    norm_num [Ahat1]
  have hL : (fdm_setup_cg 2 Ahat1 Bhat1 eye2).getD 2 mzero 0 1 = -1 := by
    simp only [fdm_setup_cg]
    have hg : ∀ (mass : Mtx) (v : ℕ → ℕ → Mtx), (cat_variants mass v).getD 2 mzero = v 1 0 :=
      fun mass v => rfl
    rw [hg]
    rw [numpy_to_petsc_ends_apply 2 _ 0 1 (by norm_num) (by norm_num)]
    norm_num [apply_strong_bcs, hA]
  have hR : spec_strong_bcs 2 (matTfm 2 eye2 Ahat1) 1 0 0 1 = 0 := by
    simp [spec_strong_bcs]
  rw [hL, hR]
  norm_num

/-- C3 (amended): the continuous-Galerkin catalog stiffness variant for
flags `(bc0, bc1)` equals `A = S.T @ Ahat @ S` with every off-diagonal entry
`(i, j)` whose two indices both lie in the contiguous slice
`[bc0 = 1 ? 0 : 1, bc1 = 1 ? nn : nn-1)` set to zero and the diagonal left
untouched (`apply_strong_bcs`).  Relative to the claim: interior
off-diagonal entries are zeroed even at free endpoints, and the corner
entry coupling a constrained endpoint to a free opposite endpoint is NOT
zeroed.  Stated for symmetric `A` (`Ahat` is a symmetric quadrature
Gram matrix, so `A` is symmetric in exact arithmetic). -/
theorem C3_cg_variant_amended (nn : ℕ) (Ahat Bhat Sfdm : Mtx) (bc0 bc1 i j : ℕ)
    (hnn : 2 ≤ nn) (hb0 : bc0 ≤ 1) (hb1 : bc1 ≤ 1) (hi : i < nn) (hj : j < nn)
    (hsym : ∀ a b, a < nn → b < nn → matTfm nn Sfdm Ahat a b = matTfm nn Sfdm Ahat b a) :
    (fdm_setup_cg nn Ahat Bhat Sfdm).getD (1 + bc0 + 2*bc1) mzero i j
      = apply_strong_bcs nn (matTfm nn Sfdm Ahat) bc0 bc1 i j := by
  simp only [fdm_setup_cg]
  rw [cat_variants_getD _ _ bc0 bc1 hb0 hb1]
  rw [numpy_to_petsc_ends_symm nn _ i j hi hj
    (apply_strong_bcs_symm nn (matTfm nn Sfdm Ahat) bc0 bc1 hsym)]
  by_cases hcond : i = 0 ∨ i = nn-1 ∨ j = 0 ∨ j = nn-1 ∨ i = j
  · rw [if_pos hcond]
  · rw [if_neg hcond]
    push_neg at hcond
    obtain ⟨c1, c2, c3, c4, c5⟩ := hcond
    simp only [apply_strong_bcs]
    rw [if_neg c5, if_pos]
    refine ⟨?_, ?_, ?_, ?_⟩
    · split <;> omega
    · split <;> omega
    · split <;> omega
    · split <;> omega

/-- C3 (amended) witness at a concrete instance. -/
theorem C3_cg_variant_amended_witness :
    (fdm_setup_cg 2 Ahat1 Bhat1 eye2).getD 2 mzero 1 0
      = apply_strong_bcs 2 (matTfm 2 eye2 Ahat1) 1 0 1 0 :=
  C3_cg_variant_amended 2 Ahat1 Bhat1 eye2 1 0 1 0 (by norm_num) (by norm_num)
    (by norm_num) (by norm_num) (by norm_num) matTfm_eye2_Ahat1_symm

/-- C7: catalog entry 0 of both the CG and the IPDG interval factories is
the stored transformed mass matrix `B = S.T @ Bhat @ S`: its diagonal is
kept, the only off-diagonal entries kept by `numpy_to_petsc` with empty
`dense_indices` are the two corner entries `(0, nn-1)` and `(nn-1, 0)`, and
every other entry reads `0` — in particular the interior block is diagonal
and off-diagonal nonzeros are confined to the boundary rows/columns. -/
theorem C7_mass_entry0 (nn : ℕ) (Ahat Bhat Sfdm Draw : Mtx) (eta : ℚ) (i j : ℕ)
    (hi : i < nn) (hj : j < nn) :
    (fdm_setup_cg nn Ahat Bhat Sfdm).getD 0 mzero i j
        = (if i = nn-1 ∧ j = 0 then matTfm nn Sfdm Bhat (nn-1) 0
           else if i = 0 ∧ j = nn-1 then matTfm nn Sfdm Bhat 0 (nn-1)
           else if i = j then matTfm nn Sfdm Bhat i j
           else 0)
    ∧ ((fdm_setup_ipdg nn Ahat Bhat Sfdm Draw eta).1).getD 0 mzero i j
        = (if i = nn-1 ∧ j = 0 then matTfm nn Sfdm Bhat (nn-1) 0
           else if i = 0 ∧ j = nn-1 then matTfm nn Sfdm Bhat 0 (nn-1)
           else if i = j then matTfm nn Sfdm Bhat i j
           else 0) := by
  constructor
  · simp only [fdm_setup_cg, cat_variants_eq, List.getD_cons_zero]
    exact numpy_to_petsc_corners_apply nn _ i j hi hj
  · simp only [fdm_setup_ipdg, cat_variants_eq, List.getD_cons_zero]
    exact numpy_to_petsc_corners_apply nn _ i j hi hj

/-- C7 witness at a concrete instance. -/
theorem C7_mass_entry0_witness :
    (fdm_setup_cg 2 Ahat1 Bhat1 eye2).getD 0 mzero 0 1 = matTfm 2 eye2 Bhat1 0 1
    ∧ ((fdm_setup_ipdg 2 Ahat1 Bhat1 eye2 Dhat1 4).1).getD 0 mzero 0 1
        = matTfm 2 eye2 Bhat1 0 1 := by
  have h := C7_mass_entry0 2 Ahat1 Bhat1 eye2 Dhat1 4 0 1 (by norm_num) (by norm_num)
  constructor
  · rw [h.1]; norm_num
  · rw [h.2]; norm_num

lemma matMulT_flip_comm (nn : ℕ) (S Draw : Mtx) (i j : ℕ) :
    matMulT nn S (fdm_setup_flip Draw) i j = fdm_setup_flip (matMulT nn S Draw) i j := by
  unfold matMulT fdm_setup_flip
  by_cases h : j = 0
  · simp [h, mul_neg, Finset.sum_neg_distrib]
  · simp [h]

lemma spec_weak_bcs_symm (nn : ℕ) (A D : Mtx) (bc0 bc1 : ℕ) (eta : ℚ)
    (hs : ∀ a b, a < nn → b < nn → A a b = A b a) (a b : ℕ) (ha : a < nn) (hb : b < nn) :
    spec_weak_bcs nn A D bc0 bc1 eta a b = spec_weak_bcs nn A D bc0 bc1 eta b a := by
  simp only [spec_weak_bcs]
  rw [hs a b ha hb]
  by_cases h1 : a = 0 <;> by_cases h2 : b = 0 <;> by_cases h3 : a = nn-1 <;>
    by_cases h4 : b = nn-1 <;> simp [h1, h2, h3, h4] <;> ring

lemma apply_weak_bcs_symm (nn : ℕ) (A D : Mtx) (bc0 bc1 : ℕ) (eta : ℚ)
    (hs : ∀ a b, a < nn → b < nn → A a b = A b a) (a b : ℕ) (ha : a < nn) (hb : b < nn) :
    apply_weak_bcs nn A D bc0 bc1 eta a b = apply_weak_bcs nn A D bc0 bc1 eta b a := by
  rw [apply_weak_bcs_apply, apply_weak_bcs_apply]
  exact spec_weak_bcs_symm nn A D bc0 bc1 eta hs a b ha hb

/-- C4: `fdm_setup_ipdg` returns (1) the endpoint derivative tabulation of
the eigenbasis with its first-endpoint column sign-flipped (the flip and the
basis transform commute), and (2) four stiffness variants obtained from
`A = S.T @ Ahat @ S` by, independently for each endpoint in the
weak-Dirichlet state, subtracting the flux-coupling column and row `Dfacet`
at that endpoint and adding `eta` on that endpoint's diagonal entry
(`spec_weak_bcs`).  Part (2) is stated under the exact-arithmetic FDM
invariants of `A`: symmetry and a diagonal interior block (the stored
variant drops interior off-diagonal entries, which are zero under these
invariants). -/
theorem C4_ipdg_setup (nn : ℕ) (Ahat Bhat Sfdm Draw : Mtx) (eta : ℚ) :
    (∀ i j, (fdm_setup_ipdg nn Ahat Bhat Sfdm Draw eta).2 i j
        = fdm_setup_flip (matMulT nn Sfdm Draw) i j)
    ∧ (∀ bc0 bc1 i j, bc0 ≤ 1 → bc1 ≤ 1 → 2 ≤ nn → i < nn → j < nn →
        (∀ a b, a < nn → b < nn → matTfm nn Sfdm Ahat a b = matTfm nn Sfdm Ahat b a) →
        (∀ a b, a < nn → b < nn → a ≠ b → a ≠ 0 → a ≠ nn-1 → b ≠ 0 → b ≠ nn-1 →
          matTfm nn Sfdm Ahat a b = 0) →
        ((fdm_setup_ipdg nn Ahat Bhat Sfdm Draw eta).1).getD (1 + bc0 + 2*bc1) mzero i j
          = spec_weak_bcs nn (matTfm nn Sfdm Ahat)
              ((fdm_setup_ipdg nn Ahat Bhat Sfdm Draw eta).2) bc0 bc1 eta i j) := by
  constructor
  · intro i j
    exact matMulT_flip_comm nn Sfdm Draw i j
  · intro bc0 bc1 i j hb0 hb1 hnn hi hj hsym hflat
    simp only [fdm_setup_ipdg]
    rw [cat_variants_getD _ _ bc0 bc1 hb0 hb1]
    rw [numpy_to_petsc_ends_symm nn _ i j hi hj
      (apply_weak_bcs_symm nn (matTfm nn Sfdm Ahat) (matMulT nn Sfdm (fdm_setup_flip Draw))
        bc0 bc1 eta hsym)]
    by_cases hcond : i = 0 ∨ i = nn-1 ∨ j = 0 ∨ j = nn-1 ∨ i = j
    · rw [if_pos hcond, apply_weak_bcs_apply]
    · rw [if_neg hcond]
      push_neg at hcond
      obtain ⟨c1, c2, c3, c4, c5⟩ := hcond
      have hz : matTfm nn Sfdm Ahat i j = 0 := hflat i j hi hj c5 c1 c2 c3 c4
      simp [spec_weak_bcs, c1, c2, c3, c4, hz]

/-- C4 witness at a concrete instance. -/
theorem C4_ipdg_setup_witness :
    ((fdm_setup_ipdg 2 Ahat1 Bhat1 eye2 Dhat1 4).1).getD 4 mzero 0 0
      = spec_weak_bcs 2 (matTfm 2 eye2 Ahat1)
          ((fdm_setup_ipdg 2 Ahat1 Bhat1 eye2 Dhat1 4).2) 1 1 4 0 0 := by
  have h := (C4_ipdg_setup 2 Ahat1 Bhat1 eye2 Dhat1 4).2 1 1 0 0 (by norm_num) (by norm_num)
    (by norm_num) (by norm_num) (by norm_num) matTfm_eye2_Ahat1_symm
    (by intro a b ha hb hab ha0 ha1 hb0 hb1; omega)
  simpa using h

lemma flag2id_apply (ndim f d : ℕ) (hd : d < ndim) :
    flag2id ndim f d = (if f = 2*d then 1 else 0) + (if f = 2*d+1 then 2 else 0) := by
  unfold flag2id npKron eyeN colOneTwo
  simp only [Nat.div_one, Nat.mod_one]
  by_cases hfd : f / 2 = d
  · by_cases hm : f % 2 = 0
    · have h1 : f = 2*d := by omega
      have h2 : f ≠ 2*d+1 := by omega
      simp [hfd, hm, hd, h1, h2]
    · have h2 : f = 2*d+1 := by omega
      subst h2
      have hm1 : (2*d+1) % 2 = 1 := by omega
      have e1 : (2*d+1) / 2 = d := by omega
      have h1 : 2*d+1 ≠ 2*d := by omega
      simp [hm1, e1, hd, h1]
  · have h1 : f ≠ 2*d := by omega
    have h2 : f ≠ 2*d+1 := by omega
    simp [hfd, h1, h2]

lemma fbcDot_apply (bck : ℕ → ℕ) (ndim d : ℕ) (hd : d < ndim) :
    fbcDot bck ndim d = bck (2*d) + 2 * bck (2*d+1) := by
  unfold fbcDot
  have h : ∀ f ∈ Finset.range (2*ndim),
      bck f * flag2id ndim f d
        = (if f = 2*d then bck (2*d) else 0) + (if f = 2*d+1 then 2 * bck (2*d+1) else 0) := by
    intro f _
    rw [flag2id_apply ndim f d hd]
    by_cases h1 : f = 2*d
    · have h2 : f ≠ 2*d+1 := by omega
      simp [h1, h2]
    · by_cases h2 : f = 2*d+1
      · simp [h1, h2]
        ring
      · simp [h1, h2]
  rw [Finset.sum_congr rfl h, Finset.sum_add_distrib]
  have m1 : 2*d ∈ Finset.range (2*ndim) := Finset.mem_range.mpr (by omega)
  have m2 : 2*d+1 ∈ Finset.range (2*ndim) := Finset.mem_range.mpr (by omega)
  rw [Finset.sum_ite_eq' (Finset.range (2*ndim)) (2*d) (fun _ => bck (2*d)),
    Finset.sum_ite_eq' (Finset.range (2*ndim)) (2*d+1) (fun _ => 2 * bck (2*d+1))]
  rw [if_pos m1, if_pos m2]

/-- C10: the Kronecker flag encoding and the catalog construction order
agree.  `numpy.dot(bck, flag2id)` in direction `d` equals
`bc0 + 2*bc1` where `bc0`/`bc1` are the flags of the first/second endpoint
facet of direction `d`, and catalog index `1 + bc0 + 2*bc1` of both
`fdm_setup_cg` and `fdm_setup_ipdg` is exactly the variant built with the
strong/weak treatment applied at those flagged endpoints (the loops append
with `bc1` outer, `bc0` inner). -/
theorem C10_flag_encoding (nn ndim d : ℕ) (bck : ℕ → ℕ)
    (Ahat Bhat Sfdm Draw : Mtx) (eta : ℚ)
    (hd : d < ndim) (h0 : bck (2*d) ≤ 1) (h1 : bck (2*d+1) ≤ 1) :
    fbcDot bck ndim d = bck (2*d) + 2 * bck (2*d+1)
    ∧ (fdm_setup_cg nn Ahat Bhat Sfdm).getD (1 + fbcDot bck ndim d) mzero
        = numpy_to_petsc nn
            (apply_strong_bcs nn (matTfm nn Sfdm Ahat) (bck (2*d)) (bck (2*d+1)))
            [0, nn-1] true
    ∧ ((fdm_setup_ipdg nn Ahat Bhat Sfdm Draw eta).1).getD (1 + fbcDot bck ndim d) mzero
        = numpy_to_petsc nn
            (apply_weak_bcs nn (matTfm nn Sfdm Ahat)
              (matMulT nn Sfdm (fdm_setup_flip Draw)) (bck (2*d)) (bck (2*d+1)) eta)
            [0, nn-1] true := by
  have hsum := fbcDot_apply bck ndim d hd
  have hidx : 1 + fbcDot bck ndim d = 1 + bck (2*d) + 2 * bck (2*d+1) := by
    rw [hsum]; ring
  refine ⟨hsum, ?_, ?_⟩
  · simp only [fdm_setup_cg]
    rw [hidx]
    exact cat_variants_getD _ _ _ _ h0 h1
  · simp only [fdm_setup_ipdg]
    rw [hidx]
    exact cat_variants_getD _ _ _ _ h0 h1

/-- C10 witness at a concrete instance. -/
theorem C10_flag_encoding_witness : fbcDot bckW 2 0 = 1 := by
  have h := (C10_flag_encoding 2 2 0 bckW Ahat1 Bhat1 eye2 Dhat1 4
    (by norm_num) (by norm_num [bckW]) (by norm_num [bckW])).1
  simpa [bckW] using h

lemma setValueAdd_apply (M : Mtx) (r c : ℤ) (v : ℚ) (i j : ℕ) :
    setValueAdd M r c v i j
      = if (0 ≤ r ∧ 0 ≤ c) ∧ i = r.toNat ∧ j = c.toNat then M i j + v else M i j := by
  unfold setValueAdd
  by_cases h : 0 ≤ r ∧ 0 ≤ c
  · by_cases e : i = r.toNat ∧ j = c.toNat
    · simp [h, e]
    · simp [h, e]
  · simp [h]

lemma setValueAdd_comm (M : Mtx) (r c r' c' : ℤ) (v v' : ℚ) :
    setValueAdd (setValueAdd M r c v) r' c' v' = setValueAdd (setValueAdd M r' c' v') r c v := by
  funext i j
  rw [setValueAdd_apply, setValueAdd_apply, setValueAdd_apply, setValueAdd_apply]
  by_cases e1 : (0 ≤ r ∧ 0 ≤ c) ∧ i = r.toNat ∧ j = c.toNat
  · by_cases e2 : (0 ≤ r' ∧ 0 ≤ c') ∧ i = r'.toNat ∧ j = c'.toNat
    · simp only [if_pos e1, if_pos e2]; ring
    · simp only [if_pos e1, if_neg e2]
  · by_cases e2 : (0 ≤ r' ∧ 0 ≤ c') ∧ i = r'.toNat ∧ j = c'.toNat
    · simp only [if_neg e1, if_pos e2]
    · simp only [if_neg e1, if_neg e2]

lemma set_submat_cons (M : Mtx) (g : List ℤ) (x : ℕ × ℕ × ℚ) (xs : List (ℕ × ℕ × ℚ)) :
    set_submat_csr M g (x :: xs)
      = set_submat_csr (setValueAdd M (g.getD x.1 (-1)) (g.getD x.2.1 (-1)) x.2.2) g xs := rfl

lemma set_submat_setValueAdd (r c : ℤ) (v : ℚ) (g : List ℤ)
    (es : List (ℕ × ℕ × ℚ)) (M : Mtx) :
    set_submat_csr (setValueAdd M r c v) g es
      = setValueAdd (set_submat_csr M g es) r c v := by
  induction es generalizing M with
  | nil => rfl
  | cons x xs ih =>
      rw [set_submat_cons, set_submat_cons, setValueAdd_comm, ih]

lemma set_submat_comm (M : Mtx) (g1 g2 : List ℤ) (e1 e2 : List (ℕ × ℕ × ℚ)) :
    set_submat_csr (set_submat_csr M g1 e1) g2 e2
      = set_submat_csr (set_submat_csr M g2 e2) g1 e1 := by
  induction e1 generalizing M with
  | nil => rfl
  | cons x xs ih =>
      rw [set_submat_cons, ih, set_submat_cons, set_submat_setValueAdd]

lemma scatterContrib_comm (lg : ℕ → ℤ) (M : Mtx) (a b : Contrib) :
    scatterContrib lg (scatterContrib lg M a) b = scatterContrib lg (scatterContrib lg M b) a := by
  unfold scatterContrib
  exact set_submat_comm M (a.ie.map lg) (b.ie.map lg) a.entries b.entries

lemma map_getD_lgmap (lg : ℕ → ℤ) (ie : List ℕ) (n : ℕ) (R : ℕ)
    (h : ∀ x, 0 ≤ lg x → (lg x).toNat ≠ R) :
    0 ≤ (ie.map lg).getD n (-1) → ((ie.map lg).getD n (-1)).toNat ≠ R := by
  rw [List.getD_eq_getElem?_getD, List.getElem?_map]
  cases hx : ie[n]? with
  | none => simp
  | some x => simpa using h x

lemma set_submat_row (g : List ℤ) (es : List (ℕ × ℕ × ℚ)) (M : Mtx) (R col : ℕ)
    (h : ∀ n, 0 ≤ g.getD n (-1) → (g.getD n (-1)).toNat ≠ R) :
    set_submat_csr M g es R col = M R col := by
  induction es generalizing M with
  | nil => rfl
  | cons x xs ih =>
      rw [set_submat_cons, ih]
      rw [setValueAdd_apply]
      by_cases e : (0 ≤ g.getD x.1 (-1) ∧ 0 ≤ g.getD x.2.1 (-1))
          ∧ R = (g.getD x.1 (-1)).toNat ∧ col = (g.getD x.2.1 (-1)).toNat
      · exact absurd e.2.1.symm (h x.1 e.1.1)
      · rw [if_neg e]

lemma scatter_fold_row (lg : ℕ → ℤ) (cs : List Contrib) (M : Mtx) (R col : ℕ)
    (h : ∀ x, 0 ≤ lg x → (lg x).toNat ≠ R) :
    (cs.foldl (scatterContrib lg) M) R col = M R col := by
  induction cs generalizing M with
  | nil => rfl
  | cons c cs ih =>
      rw [List.foldl_cons, ih]
      exact set_submat_row _ _ _ _ _ (fun n => map_getD_lgmap lg c.ie n R h)

lemma dirichlet_fold_away (lg dlg : ℕ → ℤ) (l : List ℕ) (M : Mtx) (d R col : ℕ)
    (hR : R = (dlg d).toNat) (hdl : d ∉ l)
    (h1 : ∀ i, 0 ≤ dlg i) (h2 : ∀ i j, dlg i = dlg j → i = j) :
    (l.foldl (fun M i => if lg i < 0 then setValueAdd M (dlg i) (dlg i) 1 else M) M) R col
      = M R col := by
  induction l generalizing M with
  | nil => rfl
  | cons x xs ih =>
      have hx : x ≠ d := fun e => hdl (e ▸ List.mem_cons_self x xs)
      have hxs : d ∉ xs := fun e => hdl (List.mem_cons_of_mem x e)
      rw [List.foldl_cons, ih _ hxs]
      by_cases hlg : lg x < 0
      · rw [if_pos hlg, setValueAdd_apply]
        have hne : ¬ R = (dlg x).toNat := by
          intro hc
          apply hx
          apply h2
          have ex : ((dlg x).toNat : ℤ) = dlg x := Int.toNat_of_nonneg (h1 x)
          have ed : ((dlg d).toNat : ℤ) = dlg d := Int.toNat_of_nonneg (h1 d)
          omega
        rw [if_neg (by tauto)]
      · rw [if_neg hlg]

lemma dirichletMat_row (lg dlg : ℕ → ℤ) (ndof d col : ℕ)
    (hd : d < ndof) (he : lg d < 0)
    (h1 : ∀ i, 0 ≤ dlg i) (h2 : ∀ i j, dlg i = dlg j → i = j) :
    dirichletMat ndof lg dlg (dlg d).toNat col
      = if col = (dlg d).toNat then 1 else 0 := by
  obtain ⟨l1, l2, hsplit⟩ := List.append_of_mem (List.mem_range.mpr hd)
  have hnd : (List.range ndof).Nodup := List.nodup_range ndof
  rw [hsplit] at hnd
  have hd1 : d ∉ l1 := by
    have := List.disjoint_of_nodup_append hnd
    intro hc
    exact this hc (List.mem_cons_self d l2)
  have hd2 : d ∉ l2 := by
    have := (List.nodup_append.mp hnd).2.1
    exact (List.nodup_cons.mp this).1
  unfold dirichletMat
  rw [hsplit, List.foldl_append, List.foldl_cons]
  rw [dirichlet_fold_away lg dlg l2 _ d _ col rfl hd2 h1 h2]
  rw [if_pos he, setValueAdd_apply]
  by_cases hc : col = (dlg d).toNat
  · rw [if_pos (by exact ⟨⟨h1 d, h1 d⟩, rfl, hc⟩), if_pos hc]
    rw [dirichlet_fold_away lg dlg l1 _ d _ col rfl hd1 h1 h2]
    norm_num
  · rw [if_neg (by tauto), if_neg hc]
    exact dirichlet_fold_away lg dlg l1 _ d _ col rfl hd1 h1 h2

/-- C1: after a call to `assemble_kron` on a non-preallocator matrix, every
global row `dlg d` of a local dof `d` eliminated by the bc-aware
local-to-global map (`lg d < 0`) is exactly the identity row: `1` on the
diagonal and `0` elsewhere, regardless of which cell and facet contributions
were scattered.  Hypotheses: the unconstrained map `dlg` is nonnegative and
injective, and `lg` agrees with `dlg` wherever it is nonnegative (negative
entries mark the eliminated dofs). -/
theorem C1_dirichlet_rows (ndim gdim ndof : ℕ) (Dfdm : List (Option Unit))
    (lg dlg : ℕ → ℤ) (ccs fcs : List Contrib) (d col : ℕ)
    (h1 : ∀ i, 0 ≤ dlg i) (h2 : ∀ i j, dlg i = dlg j → i = j)
    (h3 : ∀ i, lg i < 0 ∨ lg i = dlg i)
    (hd : d < ndof) (he : lg d < 0) :
    (assemble_kron ndim gdim ndof Dfdm lg dlg ccs fcs).2 (dlg d).toNat col
      = if col = (dlg d).toNat then 1 else 0 := by
  have hrow : ∀ x, 0 ≤ lg x → (lg x).toNat ≠ (dlg d).toNat := by
    intro x hx hc
    rcases h3 x with hneg | heq
    · omega
    · have ex : ((dlg x).toNat : ℤ) = dlg x := Int.toNat_of_nonneg (h1 x)
      have ed : ((dlg d).toNat : ℤ) = dlg d := Int.toNat_of_nonneg (h1 d)
      have : dlg x = dlg d := by rw [heq] at hc; omega
      have : x = d := h2 _ _ this
      subst this
      omega
  have hbase := dirichletMat_row lg dlg ndof d col hd he h1 h2
  unfold assemble_kron
  dsimp only
  by_cases hD : Dfdm.any Option.isSome
  · by_cases hg : ndim < gdim
    · simp only [if_pos hD, if_pos hg]
      rw [scatter_fold_row lg ccs _ _ _ hrow]
      exact hbase
    · simp only [if_pos hD, if_neg hg]
      rw [scatter_fold_row lg fcs _ _ _ hrow, scatter_fold_row lg ccs _ _ _ hrow]
      exact hbase
  · simp only [if_neg hD]
    rw [scatter_fold_row lg ccs _ _ _ hrow]
    exact hbase

/-- C1 witness at a concrete instance: dof 1 is eliminated, a cell
contribution writes into its row and column, yet the row stays the identity
row. -/
theorem C1_dirichlet_rows_witness :
    (assemble_kron 2 2 3 [] lgW dlgW [ccW] []).2 1 2 = 0
    ∧ (assemble_kron 2 2 3 [] lgW dlgW [ccW] []).2 1 1 = 1 := by
  have h1 : ∀ i, 0 ≤ dlgW i := fun i => Int.ofNat_nonneg i
  have h2 : ∀ i j, dlgW i = dlgW j → i = j := fun i j h => by
    simpa [dlgW] using h
  have h3 : ∀ i, lgW i < 0 ∨ lgW i = dlgW i := by
    intro i
    by_cases h : i = 1
    · left; simp [lgW, h]
    · right; simp [lgW, dlgW, h]
  have hw := C1_dirichlet_rows 2 2 3 [] lgW dlgW [ccW] [] 1 2 h1 h2 h3
    (by norm_num) (by norm_num [lgW])
  have hw1 := C1_dirichlet_rows 2 2 3 [] lgW dlgW [ccW] [] 1 1 h1 h2 h3
    (by norm_num) (by norm_num [lgW])
  constructor
  · simpa [dlgW] using hw
  · simpa [dlgW] using hw1

/-- C8: the matrix produced by `assemble_kron` does not depend on the order
in which the per-cell and per-interior-facet contributions are scattered:
every insertion is additive (`ADD_VALUES`), so any permutation of the
contribution lists yields the same result. -/
theorem C8_order_independence (ndim gdim ndof : ℕ) (Dfdm : List (Option Unit))
    (lg dlg : ℕ → ℤ) (ccs ccs' fcs fcs' : List Contrib)
    (hc : ccs.Perm ccs') (hf : fcs.Perm fcs') :
    assemble_kron ndim gdim ndof Dfdm lg dlg ccs fcs
      = assemble_kron ndim gdim ndof Dfdm lg dlg ccs' fcs' := by
  have hfold : ∀ (l l' : List Contrib), l.Perm l' → ∀ M : Mtx,
      l.foldl (scatterContrib lg) M = l'.foldl (scatterContrib lg) M := by
    intro l l' p M
    exact p.foldl_eq' (fun x _ y _ z => scatterContrib_comm lg z x y) M
  unfold assemble_kron
  dsimp only
  rw [hfold ccs ccs' hc, hfold fcs fcs' hf]

/-- C8 witness: swapping two concrete cell contributions leaves the
assembled matrix unchanged. -/
theorem C8_order_independence_witness :
    assemble_kron 2 2 3 [] lgW dlgW [ccW, ccW2] []
      = assemble_kron 2 2 3 [] lgW dlgW [ccW2, ccW] [] :=
  C8_order_independence 2 2 3 [] lgW dlgW [ccW, ccW2] [ccW2, ccW] [] []
    (List.Perm.swap ccW2 ccW []) (List.Perm.refl [])

/-- C9: `assemble_kron` raises `NotImplementedError` exactly when some
direction has a normal-derivative tabulation (interior-penalty facet
assembly is required) and the geometric dimension exceeds the topological
dimension; in that case the matrix state is the one before any
interior-facet contribution was scattered (it does not depend on the facet
contributions). -/
theorem C9_sipg_error (ndim gdim ndof : ℕ) (Dfdm : List (Option Unit))
    (lg dlg : ℕ → ℤ) (ccs fcs : List Contrib) :
    ((assemble_kron ndim gdim ndof Dfdm lg dlg ccs fcs).1
        = some "SIPG on immersed meshes is not implemented"
      ↔ (Dfdm.any Option.isSome = true ∧ ndim < gdim))
    ∧ ((assemble_kron ndim gdim ndof Dfdm lg dlg ccs fcs).1.isSome →
        (assemble_kron ndim gdim ndof Dfdm lg dlg ccs fcs).2
          = (assemble_kron ndim gdim ndof Dfdm lg dlg ccs []).2) := by
  unfold assemble_kron
  dsimp only
  by_cases hD : Dfdm.any Option.isSome
  · by_cases hg : ndim < gdim
    · simp only [if_pos hD, if_pos hg]
      refine ⟨by simp [hD, hg], ?_⟩
      intro h
      trivial
    · simp only [if_pos hD, if_neg hg]
      exact ⟨by simp [hg], by simp⟩
  · simp only [if_neg hD]
    exact ⟨by simp [hD], by simp⟩

/-- C9 witness: a manifold configuration (`ndim = 2 < gdim = 3`) with a
derivative tabulation present raises, and the matrix equals the cell-only
state. -/
theorem C9_sipg_error_witness :
    (assemble_kron 2 3 3 [some ()] lgW dlgW [ccW] [ccW2]).2
      = (assemble_kron 2 3 3 [some ()] lgW dlgW [ccW] []).2 :=
  (C9_sipg_error 2 3 3 [some ()] lgW dlgW [ccW] [ccW2]).2 (by trivial)

lemma compKeys_stepBC (st : CompMap × List (List ℕ)) (bc : BCrec) :
    compKeys (stepBC st bc).1 = bc.indices :: compKeys st.1 := by
  rcases bc with ⟨ind, sub⟩
  cases sub <;> rfl

lemma compKeys_stepIntegral (st : CompMap × List (List ℕ)) (it : FacetIntegral) :
    compKeys (stepIntegral st it).1 = [] :: compKeys st.1 := by
  rcases it with ⟨kind, sub⟩
  cases sub <;> cases kind <;> rfl

lemma keys_foldl_bcs (bcs : List BCrec) (st : CompMap × List (List ℕ))
    (hall : ∀ bc ∈ bcs, bc.indices = ([] : List ℕ))
    (hst : ∀ k ∈ compKeys st.1, k = ([] : List ℕ)) :
    ∀ k ∈ compKeys (bcs.foldl stepBC st).1, k = ([] : List ℕ) := by
  induction bcs generalizing st with
  | nil => exact hst
  | cons b bs ih =>
      rw [List.foldl_cons]
      refine ih (stepBC st b) (fun bc h => hall bc (List.mem_cons_of_mem b h)) ?_
      intro k hk
      rw [compKeys_stepBC] at hk
      rcases List.mem_cons.mp hk with h | h
      · rw [h]
        exact hall b (List.mem_cons_self b bs)
      · exact hst k h

lemma keys_foldl_its (its : List FacetIntegral) (st : CompMap × List (List ℕ))
    (hst : ∀ k ∈ compKeys st.1, k = ([] : List ℕ)) :
    ∀ k ∈ compKeys (its.foldl stepIntegral st).1, k = ([] : List ℕ) := by
  induction its generalizing st with
  | nil => exact hst
  | cons b bs ih =>
      rw [List.foldl_cons]
      refine ih (stepIntegral st b) ?_
      intro k hk
      rw [compKeys_stepIntegral] at hk
      rcases List.mem_cons.mp hk with h | h
      · exact h
      · exact hst k h

lemma mask_stepBC_mono (st : CompMap × List (List ℕ)) (bc : BCrec) (x : List ℕ)
    (hx : x ∈ st.2) : x ∈ (stepBC st bc).2 := by
  rcases bc with ⟨ind, sub⟩
  cases sub <;> simp [stepBC, List.mem_append, hx]

lemma mask_stepIntegral_mono (st : CompMap × List (List ℕ)) (it : FacetIntegral) (x : List ℕ)
    (hx : x ∈ st.2) : x ∈ (stepIntegral st it).2 := by
  rcases it with ⟨kind, sub⟩
  cases sub <;> cases kind <;> simp [stepIntegral, List.mem_append, hx]

lemma mask_bcs_mono (l : List BCrec) (st : CompMap × List (List ℕ)) (x : List ℕ)
    (hx : x ∈ st.2) : x ∈ (l.foldl stepBC st).2 := by
  induction l generalizing st with
  | nil => exact hx
  | cons b bs ih =>
      rw [List.foldl_cons]
      exact ih (stepBC st b) (mask_stepBC_mono st b x hx)

lemma mask_its_mono (l : List FacetIntegral) (st : CompMap × List (List ℕ)) (x : List ℕ)
    (hx : x ∈ st.2) : x ∈ (l.foldl stepIntegral st).2 := by
  induction l generalizing st with
  | nil => exact hx
  | cons b bs ih =>
      rw [List.foldl_cons]
      exact ih (stepIntegral st b) (mask_stepIntegral_mono st b x hx)

lemma mask_of_onBoundary (l : List BCrec) (st : CompMap × List (List ℕ)) (bc : BCrec)
    (hm : bc ∈ l) (hob : bc.sub = BCSub.onBoundary) :
    bc.indices ∈ (l.foldl stepBC st).2 := by
  induction l generalizing st with
  | nil => cases hm
  | cons b bs ih =>
      rw [List.foldl_cons]
      rcases List.mem_cons.mp hm with h | h
      · subst h
        apply mask_bcs_mono bs _ _
        rcases bc with ⟨ind, sub⟩
        cases hob
        simp [stepBC, List.mem_append]
      · exact ih _ h

/-- C5 (counterexample): a Dirichlet condition on `"on_boundary"` restricted
to vector component 0 sets flag 1 on component 0 of an interior facet
(`cell_to_facets` flag 1, sub-domain id -1): the per-component `maskall`
override `fbc[j][sub >= -1] = 1` runs after the interior-facet clearing and
is not re-applied, so an interior facet does receive a Dirichlet flag. -/
theorem C5_counterexample :
    get_bc_flags ctfC5 bcsC5 [] 0 0 0 = 1 ∧ facetFlag ctfC5 0 0 ≠ 0 := by decide

/-- C5 (amended): interior facets are forced to natural whenever no
boundary condition is restricted to individual vector components (all
`bc._indices` empty): then only the all-components pass runs, and its final
step `fbc[flags != 0] = 0` clears every interior facet, for every weak form
(facet integrals only ever touch the all-components key).  With
component-restricted conditions the guarantee fails (see the
counterexample). -/
theorem C5_interior_natural_amended (ctf : List (List (ℤ × ℤ))) (bcs : List BCrec)
    (its : List FacetIntegral) (c j f : ℕ)
    (hall : ∀ bc ∈ bcs, bc.indices = ([] : List ℕ))
    (hint : facetFlag ctf c f ≠ 0) :
    get_bc_flags ctf bcs its c j f = 0 := by
  unfold get_bc_flags
  have hkeys : ∀ k ∈ compKeys (its.foldl stepIntegral (bcs.foldl stepBC ([], []))).1,
      k = ([] : List ℕ) :=
    keys_foldl_its its _ (keys_foldl_bcs bcs ([], []) hall (by intro k hk; cases hk))
  have hfalse : ((compKeys (its.foldl stepIntegral (bcs.foldl stepBC ([], []))).1).any
      (fun k => decide (k ≠ []))) = false := by
    rw [List.any_eq_false]
    intro k hk
    simpa using hkeys k hk
  rw [hfalse]
  simp only [Bool.false_eq_true, if_false]
  unfold fbcBase
  dsimp only
  rw [if_pos hint]

/-- C5 (amended) witness at a concrete instance: one interior facet, an
unrestricted `"on_boundary"` condition, flag comes out 0. -/
theorem C5_interior_natural_amended_witness :
    get_bc_flags ctfC5 bcsC6 [] 0 0 0 = 0 :=
  C5_interior_natural_amended ctfC5 bcsC6 [] 0 0 0 (by decide) (by decide)

/-- C6 (counterexample): with a single unrestricted `"on_boundary"`
condition and no facet integrals, an exterior facet whose sub-domain id is
-1 (unmarked) is flagged 1, although its id is negative and no other
condition or integral flags it: the source masks `sub >= -1`, not
`sub >= 0`. -/
theorem C6_counterexample :
    get_bc_flags ctfC6 bcsC6 [] 0 0 0 = 1 ∧ facetSub ctfC6 0 0 < 0 := by decide

/-- C6 (amended): an unrestricted Dirichlet condition targeting
`"on_boundary"` makes `get_bc_flags` assign flag 1, on every component, to
every exterior facet with sub-domain id >= -1 — that is, to every exterior
facet including unmarked ones (id -1), not only those with non-negative id.
When that condition is the only one and the form has no exterior-facet
integral, the flags are exactly the indicator of exterior facets with id
>= -1, so no interior facet is flagged. -/
theorem C6_on_boundary_amended (ctf : List (List (ℤ × ℤ))) (bcs : List BCrec)
    (its : List FacetIntegral) (bc : BCrec) (c j f : ℕ)
    (hm : bc ∈ bcs) (hob : bc.sub = BCSub.onBoundary) (hunres : bc.indices = [])
    (hext : facetFlag ctf c f = 0) (hs : -1 ≤ facetSub ctf c f) :
    get_bc_flags ctf bcs its c j f = 1
    ∧ ∀ (ctf' : List (List (ℤ × ℤ))) (c' j' f' : ℕ),
        get_bc_flags ctf' [⟨[], BCSub.onBoundary⟩] [] c' j' f'
          = if facetFlag ctf' c' f' = 0 ∧ -1 ≤ facetSub ctf' c' f' then 1 else 0 := by
  constructor
  · have hmask : ([] : List ℕ) ∈ (its.foldl stepIntegral (bcs.foldl stepBC ([], []))).2 := by
      have h := mask_of_onBoundary bcs ([], []) bc hm hob
      rw [hunres] at h
      exact mask_its_mono its _ _ h
    have hbase : fbcBase ctf (its.foldl stepIntegral (bcs.foldl stepBC ([], []))).1
        (its.foldl stepIntegral (bcs.foldl stepBC ([], []))).2 c f = 1 := by
      unfold fbcBase
      dsimp only
      rw [if_neg (by simpa using hext), if_pos ⟨hmask, hs⟩]
    unfold get_bc_flags
    split
    · unfold fbcComp
      dsimp only
      rw [hbase]
      simp
    · exact hbase
  · intro ctf' c' j' f'
    unfold get_bc_flags
    have hstep : (List.foldl stepIntegral
        (List.foldl stepBC ([], []) [⟨[], BCSub.onBoundary⟩]) []) =
        (([([], [])], [[]]) : CompMap × List (List ℕ)) := rfl
    rw [hstep]
    simp only [compKeys, List.map_cons, List.map_nil, List.any_cons, List.any_nil]
    norm_num
    unfold fbcBase
    dsimp only
    by_cases hf0 : facetFlag ctf' c' f' = 0
    · by_cases hs' : -1 ≤ facetSub ctf' c' f'
      · rw [if_neg (by simpa using hf0), if_pos ⟨by simp, hs'⟩, if_pos ⟨hf0, hs'⟩]
      · have hn1 : ¬(([] : List ℕ) ∈ ([[]] : List (List ℕ)) ∧ -1 ≤ facetSub ctf' c' f') :=
          fun hc => hs' hc.2
        have hn2 : ¬(facetFlag ctf' c' f' = 0 ∧ -1 ≤ facetSub ctf' c' f') :=
          fun hc => hs' hc.2
        rw [if_neg (by simpa using hf0), if_neg hn1, if_neg (by simp [compGet]), if_neg hn2]
    · rw [if_pos (by simpa using hf0), if_neg (by simp [hf0])]

/-- C6 (amended) witness at a concrete instance. -/
theorem C6_on_boundary_amended_witness :
    get_bc_flags ctfC6 bcsC6 [] 0 0 0 = 1 :=
  (C6_on_boundary_amended ctfC6 bcsC6 [] ⟨[], BCSub.onBoundary⟩ 0 0 0
    (by decide) (by decide) (by decide) (by decide) (by decide)).1

/-- Grounding of the degree-1 data: the source's quadrature formula
`Ahat = (Dhat * what) @ Dhat.T` (fdm.py, line 648) applied to the degree-1
GLL tabulation reproduces `Ahat1 = [[1, -1], [-1, 1]]`, the matrix used in
the C3 counterexample. -/
lemma Ahat1_from_semhat : ∀ i < 2, ∀ j < 2, semhat_A 2 Dhat1 what1 i j = Ahat1 i j := by
  intro i hi j hj
  interval_cases i <;> interval_cases j <;>
    norm_num [semhat_A, Dhat1, what1, Ahat1, Finset.sum_range_succ]
